import Mathlib

/-!
Verification of the core of `nextjs-rag`: a shallow embedding in Lean 4 of
the text chunker (`src/chunker.ts`), the embedding batcher (`src/embedder.ts`),
the SQLite-backed vector store (`src/vectorstore.ts`), the query assembly
(`src/query.ts`) and the reindexing pipeline (`src/indexer.ts`), together with
theorems settling the specification's claims about them.

Strings are modelled as `List Char`; embedding vectors as `List ℚ` (the stored
32-bit floats are treated as exact values, since no claim depends on rounding);
the SQLite file as an explicit record of both tables plus the rowid counters.
-/

namespace NextjsRag

/-! ## Chunker (`src/chunker.ts`) -/

/-- ECMAScript `\s`: WhiteSpace and LineTerminator code points, as matched by
the `\s+` in the sentence-split regex and stripped by `String.prototype.trim`. -/
def isJsWhitespace (c : Char) : Bool :=
  c = ' ' || c = '\t' || c = '\n' || c = '\r' || c.toNat = 11 || c.toNat = 12 ||
  c.toNat = 0xa0 || c.toNat = 0x1680 || (0x2000 ≤ c.toNat && c.toNat ≤ 0x200a) ||
  c.toNat = 0x2028 || c.toNat = 0x2029 || c.toNat = 0x202f || c.toNat = 0x205f ||
  c.toNat = 0x3000 || c.toNat = 0xfeff

/-- Leading-whitespace removal (`trimStart` half of JS `trim`). -/
def trimStartJs (l : List Char) : List Char := l.dropWhile isJsWhitespace

/-- Trailing-whitespace removal (`trimEnd` half of JS `trim`). -/
def trimEndJs (l : List Char) : List Char := (l.reverse.dropWhile isJsWhitespace).reverse

/-- JS `String.prototype.trim`: strip whitespace from both ends. -/
def trimJs (l : List Char) : List Char := trimEndJs (trimStartJs l)

/-- `text.replace(/\r\n/g, '\n').replace(/\r/g, '\n')` fused into one pass:
each `\r\n` pair becomes `\n`, then every remaining lone `\r` becomes `\n`. -/
def normalizeNewlines : List Char → List Char
  | [] => []
  | '\r' :: '\n' :: rest => '\n' :: normalizeNewlines rest
  | '\r' :: rest => '\n' :: normalizeNewlines rest
  | c :: rest => c :: normalizeNewlines rest

/-- The sentence-boundary characters of the split regex `(?<=[.!?])`. -/
def isSentenceEnd (c : Char) : Bool := c = '.' || c = '!' || c = '?'

/-- Head of a char list is whitespace (the `\s` lookahead at a cut point). -/
def headIsWs : List Char → Bool
  | [] => false
  | d :: _ => isJsWhitespace d

/-- Worker for `text.split(/(?<=[.!?])\s+/)`: scans left to right; at a
sentence-end character directly followed by whitespace it closes the current
piece (keeping the punctuation) and consumes the maximal whitespace run, which
is the (discarded) separator matched by the greedy `\s+`.  The fuel only makes
the recursion structural; at least one character is consumed per step, so fuel
`l.length` never runs out (the 0-fuel equation is unreachable). -/
def splitSentencesGo : Nat → List Char → List Char → List (List Char)
  | _, [], acc => [acc.reverse]
  | 0, l, acc => [acc.reverse ++ l]
  | fuel + 1, c :: rest, acc =>
    if isSentenceEnd c && headIsWs rest then
      (acc.reverse ++ [c]) :: splitSentencesGo fuel (rest.dropWhile isJsWhitespace) []
    else
      splitSentencesGo fuel rest (c :: acc)

/-- `text.split(/(?<=[.!?])\s+/)`. -/
def splitSentences (l : List Char) : List (List Char) := splitSentencesGo l.length l []

/-- JS `s.slice(-n)` for the overlap text: the last `n` characters
(`slice(-0)` is `slice(0)`, the whole string). -/
def jsSliceNeg (l : List Char) (n : Nat) : List Char :=
  if n = 0 then l else l.drop (l.length - n)

/-- The `while (start < text.length)` loop of `splitByCharacter`, fuelled: each
round emits `text.slice(start, start + chunkSize)` and advances `start` by the
stride `chunkSize - overlap`.  The fuel bounds the rounds; with a positive
stride (the documented precondition `overlap < size`) it never runs out, and
with stride 0 the JS loop would not terminate at all. -/
def splitByCharGo (text : List Char) (chunkSize stride : Nat) : Nat → Nat → List (List Char)
  | 0, _ => []
  | fuel + 1, start =>
    if start < text.length then
      ((text.drop start).take chunkSize) :: splitByCharGo text chunkSize stride fuel (start + stride)
    else []

/-- `splitByCharacter(text, chunkSize, overlap)`: sliding character window of
width `chunkSize` and stride `chunkSize - overlap` over an oversized unit. -/
def splitByCharacter (text : List Char) (chunkSize overlap : Nat) : List (List Char) :=
  splitByCharGo text chunkSize (chunkSize - overlap) (text.length + 1) 0

/-- Loop state of `chunkText`: the chunks pushed so far and the running buffer
`currentChunk`. -/
structure ChunkAcc where
  chunks : List (List Char)
  cur : List Char
deriving DecidableEq

/-- One iteration of the `for (const sentence of sentences)` loop of
`chunkText`, translated branch for branch from the source. -/
def chunkStep (chunkSize chunkOverlap : Nat) (st : ChunkAcc) (s : List Char) : ChunkAcc :=
  if chunkSize < s.length then
    -- a single sentence larger than chunkSize: flush the buffer, split by character
    let chunks1 := if st.cur.isEmpty then st.chunks else st.chunks ++ [trimJs st.cur]
    { chunks := chunks1 ++ splitByCharacter s chunkSize chunkOverlap, cur := [] }
  else if chunkSize < st.cur.length + s.length then
    -- adding this sentence would exceed chunkSize: close the chunk
    let chunks1 := if st.cur.isEmpty then st.chunks else st.chunks ++ [trimJs st.cur]
    if 0 < chunks1.length ∧ 0 < chunkOverlap then
      -- start the new buffer with the overlap tail of the previous chunk
      let prev := chunks1.getLastD []
      { chunks := chunks1, cur := jsSliceNeg prev chunkOverlap ++ ' ' :: s }
    else
      { chunks := chunks1, cur := s }
  else
    { chunks := st.chunks, cur := st.cur ++ (if st.cur.isEmpty then s else ' ' :: s) }

/-- `chunkText(text, { chunkSize, chunkOverlap })`. -/
def chunkText (text : List Char) (chunkSize chunkOverlap : Nat) : List (List Char) :=
  let sentences := splitSentences (normalizeNewlines text)
  let fin := sentences.foldl (chunkStep chunkSize chunkOverlap) ⟨[], []⟩
  let chunks := if (trimJs fin.cur).isEmpty then fin.chunks else fin.chunks ++ [trimJs fin.cur]
  chunks.filter (fun c => 0 < c.length)

/-! ### Annotated chunker

`chunkTextA` is `chunkText` instrumented with provenance: it additionally
records, for every chunk whose buffer was seeded with the overlap tail of the
previously produced chunk (the `chunks.length > 0 && chunkOverlap > 0` branch),
the pair (previous chunk, produced chunk).  Erasing the annotations gives back
`chunkText` exactly (proved below), so properties of the recorded pairs are
properties of the overlap mechanism of the source. -/

/-- Annotated loop state: `origin` is the chunk the current buffer was seeded
from (if it was), `pairs` the seed pairs resolved so far. -/
structure ChunkAccA where
  chunks : List (List Char)
  cur : List Char
  origin : Option (List Char)
  pairs : List (List Char × List Char)
deriving DecidableEq

/-- The pair recorded when a buffer with seed origin `o` is pushed as a chunk. -/
def resolvePair (o : Option (List Char)) (c : List Char) : List (List Char × List Char) :=
  match o with
  | some p => [(p, c)]
  | none => []

/-- One annotated loop iteration; the `chunks`/`cur` computation is exactly
`chunkStep`. -/
def chunkStepA (chunkSize chunkOverlap : Nat) (st : ChunkAccA) (s : List Char) : ChunkAccA :=
  if chunkSize < s.length then
    let chunks1 := if st.cur.isEmpty then st.chunks else st.chunks ++ [trimJs st.cur]
    let pairs1 := if st.cur.isEmpty then st.pairs else st.pairs ++ resolvePair st.origin (trimJs st.cur)
    { chunks := chunks1 ++ splitByCharacter s chunkSize chunkOverlap, cur := [],
      origin := none, pairs := pairs1 }
  else if chunkSize < st.cur.length + s.length then
    let chunks1 := if st.cur.isEmpty then st.chunks else st.chunks ++ [trimJs st.cur]
    let pairs1 := if st.cur.isEmpty then st.pairs else st.pairs ++ resolvePair st.origin (trimJs st.cur)
    if 0 < chunks1.length ∧ 0 < chunkOverlap then
      let prev := chunks1.getLastD []
      { chunks := chunks1, cur := jsSliceNeg prev chunkOverlap ++ ' ' :: s,
        origin := some prev, pairs := pairs1 }
    else
      { chunks := chunks1, cur := s, origin := none, pairs := pairs1 }
  else
    { st with cur := st.cur ++ (if st.cur.isEmpty then s else ' ' :: s) }

/-- Annotated `chunkText`: the chunk list (identical to `chunkText`) together
with the recorded overlap seed pairs. -/
def chunkTextA (text : List Char) (chunkSize chunkOverlap : Nat) :
    List (List Char) × List (List Char × List Char) :=
  let sentences := splitSentences (normalizeNewlines text)
  let fin := sentences.foldl (chunkStepA chunkSize chunkOverlap) ⟨[], [], none, []⟩
  let chunks := if (trimJs fin.cur).isEmpty then fin.chunks else fin.chunks ++ [trimJs fin.cur]
  let pairs := if (trimJs fin.cur).isEmpty then fin.pairs
    else fin.pairs ++ resolvePair fin.origin (trimJs fin.cur)
  (chunks.filter (fun c => 0 < c.length), pairs)

/-! ## Embedding client (`src/embedder.ts`)

`generateEmbeddings` cuts the input into batches of at most 100 texts and
issues one API call per batch; the API is modelled by the function `f` giving
the vector the service returns for each input (the call returns one vector per
input, in input order). -/

/-- The batching loop, made structural by fuel: each round consumes at least
one text, so fuel `texts.length` never runs out. -/
def generateEmbeddingsGo (f : α → β) : Nat → List α → List β
  | _, [] => []
  | 0, _ => []
  | fuel + 1, a :: l => ((a :: l).take 100).map f ++ generateEmbeddingsGo f fuel ((a :: l).drop 100)

/-- `generateEmbeddings(texts)`: the batching loop
`for (let i = 0; i < texts.length; i += 100)`, each round contributing
`texts.slice(i, i + 100).map f`. -/
def generateEmbeddings (f : α → β) (l : List α) : List β :=
  generateEmbeddingsGo f l.length l

/-- `generateEmbedding(text)`: `(await generateEmbeddings([text]))[0]`
(`none` would be JS `undefined`). -/
def generateEmbedding (f : α → β) (t : α) : Option β :=
  (generateEmbeddings f [t]).head?

/-! ## Vector store (`src/vectorstore.ts`)

The database file holds the `chunks` table (rows in insertion order, ids from
`AUTOINCREMENT`) and the `vec_chunks` vec0 virtual table (rowid, embedding);
both rowid counters start at 1 as in SQLite, so the `vecRowId || null`
coercion in `insertChunk` never fires and is dropped. -/

/-- The argument of `insertChunk` (interface `DocumentChunk`). -/
structure DocumentChunk where
  filePath : List Char
  content : List Char
  hash : List Char
  embedding : Option (List ℚ)
deriving DecidableEq

/-- A row of the `chunks` table. -/
structure ChunkRow where
  id : Nat
  file_path : List Char
  content : List Char
  hash : List Char
  vec_rowid : Option Nat
  created_at : Nat
deriving DecidableEq

/-- The persisted store: both tables plus the next auto-assigned rowids. -/
structure StoreState where
  chunks : List ChunkRow
  vecs : List (Nat × List ℚ)
  nextChunkId : Nat
  nextVecRowid : Nat
deriving DecidableEq

/-- A freshly created database (`initTables` on a new file). -/
def emptyStore : StoreState := ⟨[], [], 1, 1⟩

/-- `insertChunk(chunk)`: if an embedding is present, insert it into
`vec_chunks` (auto-assigned rowid); then `INSERT OR REPLACE` the chunk row —
SQLite's REPLACE deletes any row conflicting on `UNIQUE(file_path, hash)`
before inserting the new row.  `now` is `Date.now()`. -/
def insertChunk (st : StoreState) (c : DocumentChunk) (now : Nat) : StoreState :=
  let vecs1 := match c.embedding with
    | some e => st.vecs ++ [(st.nextVecRowid, e)]
    | none => st.vecs
  let nextVec1 := match c.embedding with
    | some _ => st.nextVecRowid + 1
    | none => st.nextVecRowid
  let vecRef : Option Nat := match c.embedding with
    | some _ => some st.nextVecRowid
    | none => none
  let remaining := st.chunks.filter
    (fun r => !(decide (r.file_path = c.filePath ∧ r.hash = c.hash)))
  { chunks := remaining ++ [⟨st.nextChunkId, c.filePath, c.content, c.hash, vecRef, now⟩],
    vecs := vecs1, nextChunkId := st.nextChunkId + 1, nextVecRowid := nextVec1 }

/-- `insertChunk` with the failure the vec0 table can raise: inserting a vector
whose length differs from the `FLOAT[dimension]` column declaration throws. -/
def insertChunkChecked (dim : Nat) (st : StoreState) (c : DocumentChunk) (now : Nat) :
    Option StoreState :=
  match c.embedding with
  | some e => if e.length = dim then some (insertChunk st c now) else none
  | none => some (insertChunk st c now)

/-- The body of the `insertChunks` transaction: run the inserts in order,
stopping at the first failure. -/
def runInserts (dim : Nat) (st : StoreState) (cs : List DocumentChunk) (now : Nat) :
    Option StoreState :=
  cs.foldlM (fun s c => insertChunkChecked dim s c now) st

/-- `insertChunks(chunks)`: the inserts wrapped in `db.transaction`, which
commits the final state on success and rolls back to the starting state when
the body throws (better-sqlite3 transaction semantics). -/
def insertChunks (dim : Nat) (st : StoreState) (cs : List DocumentChunk) (now : Nat) :
    StoreState :=
  match runInserts dim st cs now with
  | some st' => st'
  | none => st

/-- The infallible insert loop used by the indexing pipeline (no dimension
mismatch can occur there: every embedding comes from the configured model). -/
def insertChunksOk (st : StoreState) (cs : List DocumentChunk) (now : Nat) : StoreState :=
  cs.foldl (fun s c => insertChunk s c now) st

/-- `SELECT vec_rowid FROM chunks WHERE file_path = ? AND vec_rowid IS NOT NULL`. -/
def vecRowidsOf (st : StoreState) (p : List Char) : List Nat :=
  st.chunks.filterMap (fun r => if r.file_path = p then r.vec_rowid else none)

/-- First half of `deleteChunksByFile`: the transaction deleting the collected
rowids from `vec_chunks`. -/
def deleteVecStep (st : StoreState) (p : List Char) : StoreState :=
  { st with vecs := st.vecs.filter (fun v => !(decide (v.1 ∈ vecRowidsOf st p))) }

/-- Second half of `deleteChunksByFile`: the separate
`DELETE FROM chunks WHERE file_path = ?` statement, issued after (and outside)
that transaction. -/
def deleteChunkRowsStep (st : StoreState) (p : List Char) : StoreState :=
  { st with chunks := st.chunks.filter (fun r => !(decide (r.file_path = p))) }

/-- `deleteChunksByFile(filePath)`: both halves in sequence. -/
def deleteChunksByFile (st : StoreState) (p : List Char) : StoreState :=
  deleteChunkRowsStep (deleteVecStep st p) p

/-- `fileExists(filePath)`: `COUNT(*) > 0` over rows with that path. -/
def fileExists (st : StoreState) (p : List Char) : Bool :=
  0 < (st.chunks.filter (fun r => decide (r.file_path = p))).length

/-- The `JOIN chunks c ON v.rowid = c.vec_rowid` of `similaritySearch`:
chunk rows paired with the vector rows they reference, in storage order. -/
def joinRows (st : StoreState) : List (ChunkRow × List ℚ) :=
  st.chunks.filterMap (fun r =>
    match r.vec_rowid with
    | some rid =>
      match st.vecs.lookup rid with
      | some e => some (r, e)
      | none => none
    | none => none)

/-- Decorate a list with 0-based positions (used to make the storage order of
the joined rows explicit for the `ORDER BY` tie-break). -/
def withIdx : List α → Nat → List (α × Nat)
  | [], _ => []
  | a :: l, n => (a, n) :: withIdx l (n + 1)

/-- The comparison realised by `ORDER BY distance ASC` with ties resolved by
storage order: ascending distance to the query, then ascending position. -/
def searchRel (dist : List ℚ → List ℚ → ℚ) (q : List ℚ) :
    (ChunkRow × List ℚ) × Nat → (ChunkRow × List ℚ) × Nat → Prop :=
  fun a b => dist a.1.2 q < dist b.1.2 q ∨ (dist a.1.2 q = dist b.1.2 q ∧ a.2 ≤ b.2)

instance (dist : List ℚ → List ℚ → ℚ) (q : List ℚ) : DecidableRel (searchRel dist q) :=
  fun _ _ => by unfold searchRel; infer_instance

instance (dist : List ℚ → List ℚ → ℚ) (q : List ℚ) : IsTotal _ (searchRel dist q) where
  total a b := by
    unfold searchRel
    rcases lt_trichotomy (dist a.1.2 q) (dist b.1.2 q) with h | h | h
    · exact Or.inl (Or.inl h)
    · rcases Nat.le_total a.2 b.2 with h2 | h2
      · exact Or.inl (Or.inr ⟨h, h2⟩)
      · exact Or.inr (Or.inr ⟨h.symm, h2⟩)
    · exact Or.inr (Or.inl h)

instance (dist : List ℚ → List ℚ → ℚ) (q : List ℚ) : IsTrans _ (searchRel dist q) where
  trans a b c hab hbc := by
    unfold searchRel at *
    rcases hab with h1 | ⟨h1, h1'⟩ <;> rcases hbc with h2 | ⟨h2, h2'⟩
    · exact Or.inl (h1.trans h2)
    · exact Or.inl (h2 ▸ h1)
    · exact Or.inl (h1 ▸ h2)
    · exact Or.inr ⟨h1.trans h2, h1'.trans h2'⟩

/-- The joined rows sorted as `ORDER BY distance ASC` ranks them.  `dist`
stands for the sqlite-vec scalar `vec_distance_cosine(stored, query)`, which
the store treats as an opaque external function. -/
def sortedJoin (dist : List ℚ → List ℚ → ℚ) (st : StoreState) (q : List ℚ) :
    List ((ChunkRow × List ℚ) × Nat) :=
  List.insertionSort (searchRel dist q) (withIdx (joinRows st) 0)

/-- A `similaritySearch` result row (interface `ContextChunk`). -/
structure ContextChunk where
  content : List Char
  filePath : List Char
  similarity : ℚ
deriving DecidableEq

/-- `similaritySearch(queryEmbedding, topK)`: rank the joined rows by distance,
`LIMIT topK`, and report `similarity = 1 - distance`. -/
def similaritySearch (dist : List ℚ → List ℚ → ℚ) (st : StoreState) (q : List ℚ)
    (topK : Nat) : List ContextChunk :=
  ((sortedJoin dist st q).take topK).map
    (fun x => ⟨x.1.1.content, x.1.1.file_path, 1 - dist x.1.2 q⟩)

/-! ## Query assembly (`src/query.ts`)

`queryRag` embeds the question, runs `similaritySearch`, and assembles the
answer from the returned list; the assembly is a pure function of that list,
modelled here over Lean `String`s. -/

/-- A search result as consumed by `queryRag` (content, source path,
similarity). -/
structure QueryChunk where
  content : String
  filePath : String
  similarity : ℚ
deriving DecidableEq

/-- JS `[...new Set(l)]`: deduplication keeping insertion (= first-occurrence)
order, as a left fold over the list. -/
def jsSetDedup [DecidableEq α] (l : List α) : List α :=
  l.foldl (fun acc x => if x ∈ acc then acc else acc ++ [x]) []

/-- The context block of `queryRag`:
`contextChunks.map((chunk, idx) => `[idx+1] content`).join('\n\n')`. -/
def contextText (results : List QueryChunk) : String :=
  String.intercalate "\n\n"
    ((withIdx results 0).map (fun ci => "[" ++ toString (ci.2 + 1) ++ "] " ++ ci.1.content))

/-- The pure tail of `queryRag`: the labelled context text and the citation
list `[...new Set(contextChunks.map(c => c.filePath))]`. -/
def queryAssemble (results : List QueryChunk) : String × List String :=
  (contextText results, jsSetDedup (results.map (fun c => c.filePath)))

/-- Specification-side numbering: label each entry with its 1-based rank.
Written independently of the code's `(chunk, idx)` closure, for comparison. -/
def labelFrom : Nat → List String → List String
  | _, [] => []
  | n, c :: cs => ("[" ++ toString n ++ "] " ++ c) :: labelFrom (n + 1) cs

/-- Specification-side context block: the chunk contents in rank order, each
prefixed with its 1-based rank, joined by blank lines. -/
def contextSpec (results : List QueryChunk) : String :=
  String.intercalate "\n\n" (labelFrom 1 (results.map (fun c => c.content)))

/-- Worker for `firstOccurDedup`, made structural by fuel (one element is
consumed per step, so fuel `l.length` never runs out). -/
def firstOccurDedupGo [DecidableEq α] : Nat → List α → List α
  | _, [] => []
  | 0, l => l
  | fuel + 1, a :: t => a :: firstOccurDedupGo fuel (t.filter (fun x => !(decide (x = a))))

/-- Specification-side citations: the distinct values in first-occurrence
order — keep each head, drop its later repetitions, recurse. -/
def firstOccurDedup [DecidableEq α] (l : List α) : List α :=
  firstOccurDedupGo l.length l

/-! ## Reindexing pipeline (`src/indexer.ts`, `reindexDocuments`)

The filesystem is a parameter: `onDisk` is the set of (relative) paths for
which `fs.existsSync` is true, `discovered` the files found by the directory
walk, in discovery order, with their contents.  The embedding API is the
per-text function `ef` (via `generateEmbeddings`), the MD5 fingerprint the
function `h`. -/

/-- `SELECT DISTINCT file_path FROM chunks` (`VectorStore.getAllFiles`),
distinct paths in first-occurrence order. -/
def getAllFiles (st : StoreState) : List (List Char) :=
  firstOccurDedup (st.chunks.map (fun r => r.file_path))

/-- The chunks-to-`DocumentChunk` assembly shared by both pipelines:
`chunks.map((chunk, idx) => ({filePath, content: chunk, hash: hashContent(chunk),
embedding: embeddings[idx]}))` with `embeddings = generateEmbeddings(chunks)`. -/
def mkDocumentChunks (ef : List Char → List ℚ) (h : List Char → List Char)
    (p : List Char) (cs : List (List Char)) : List DocumentChunk :=
  cs.zipWith (fun ch e => ⟨p, ch, h ch, some e⟩) (generateEmbeddings ef cs)

/-- The `for (const existingFile of existingFiles)` deletion loop of
`reindexDocuments`: delete every indexed source no longer on disk, counting
each as updated. -/
def reindexDeleteLoop (onDisk : List (List Char)) :
    StoreState × Nat → List (List Char) → StoreState × Nat
  | acc, [] => acc
  | (st, updated), p :: rest =>
    if p ∈ onDisk then reindexDeleteLoop onDisk (st, updated) rest
    else reindexDeleteLoop onDisk (deleteChunksByFile st p, updated + 1) rest

/-- One iteration of the `for (const filePath of files)` loop of
`reindexDocuments`: `needsUpdate` is true both for new and for already indexed
files, so every discovered file is (re-)processed — existing chunks deleted,
content chunked, and, unless the file chunks to nothing, embedded and
reinserted. -/
def reindexFileStep (size ov : Nat) (ef : List Char → List ℚ) (h : List Char → List Char)
    (existing : List (List Char)) (now : Nat)
    (acc : StoreState × Nat × Nat) (file : List Char × List Char) :
    StoreState × Nat × Nat :=
  let st1 := if file.1 ∈ existing then deleteChunksByFile acc.1 file.1 else acc.1
  let cs := chunkText file.2 size ov
  if cs.isEmpty then (st1, acc.2.1, acc.2.2)
  else
    (insertChunksOk st1 (mkDocumentChunks ef h file.1 cs) now, acc.2.1 + 1,
      acc.2.2 + cs.length)

/-- `reindexDocuments`: load the indexed sources, drop the ones deleted from
disk, then re-process every discovered file.  Returns the final store and
`(filesProcessed, filesUpdated, chunksCreated)`. -/
def reindexDocuments (size ov : Nat) (ef : List Char → List ℚ) (h : List Char → List Char)
    (st : StoreState) (onDisk : List (List Char))
    (discovered : List (List Char × List Char)) (now : Nat) :
    StoreState × Nat × Nat × Nat :=
  let existing := getAllFiles st
  let del := reindexDeleteLoop onDisk (st, 0) existing
  let fin := discovered.foldl (reindexFileStep size ov ef h existing now) (del.1, del.2, 0)
  (fin.1, discovered.length, fin.2.1, fin.2.2)

/-! ## Verification-side definitions -/

/-- Loop invariant for the chunk-length bound: the running buffer and every
pushed chunk stay within `size + overlap + 1` characters. -/
def ChunkInv (size ov : Nat) (st : ChunkAcc) : Prop :=
  st.cur.length ≤ size + ov + 1 ∧ ∀ c ∈ st.chunks, c.length ≤ size + ov + 1

/-- The overlap property of a recorded seed pair: the overlap tail of the
previous chunk, leading whitespace stripped, is a prefix of the produced
chunk. -/
def GoodPair (ov : Nat) (pr : List Char × List Char) : Prop :=
  trimJs pr.1 = pr.1 → trimStartJs (jsSliceNeg pr.1 ov) <+: pr.2

/-- Loop invariant for the overlap property: all resolved pairs are good, and
a seeded buffer is its seed's overlap tail, a space, and some tail. -/
def InvA (ov : Nat) (st : ChunkAccA) : Prop :=
  (∀ pr ∈ st.pairs, GoodPair ov pr) ∧
  (∀ p, st.origin = some p → ∃ tail, st.cur = jsSliceNeg p ov ++ ' ' :: tail)

/-- Forget the annotations of the annotated chunker state. -/
def eraseA (st : ChunkAccA) : ChunkAcc := ⟨st.chunks, st.cur⟩

/-- A batch chunk is present in a store: some chunk row carries its path,
fingerprint and content, and references a vector row holding its embedding
(no row reference when it has no embedding). -/
def chunkPresent (st : StoreState) (c : DocumentChunk) : Prop :=
  ∃ r ∈ st.chunks, r.file_path = c.filePath ∧ r.hash = c.hash ∧ r.content = c.content ∧
    match c.embedding with
    | some e => ∃ rid, r.vec_rowid = some rid ∧ (rid, e) ∈ st.vecs
    | none => r.vec_rowid = none

/-- No chunk row of the store carries the given source path. -/
def noSource (st : StoreState) (p : List Char) : Prop :=
  ∀ r ∈ st.chunks, r.file_path ≠ p

/-- A chunk of source `a.txt` with content `hello`, fingerprint `h1` and a
stored 1-dimensional embedding. -/
def demoChunk : DocumentChunk := ⟨"a.txt".toList, "hello".toList, "h1".toList, some [1]⟩

/-- The same logical chunk re-inserted with a fresh embedding vector. -/
def demoChunk2 : DocumentChunk := ⟨"a.txt".toList, "hello".toList, "h1".toList, some [2]⟩

/-- The store after inserting `demoChunk` twice (the second insert replaces
the chunk row of the first). -/
def orphanState : StoreState := insertChunk (insertChunk emptyStore demoChunk 10) demoChunk2 20

/-- The store holding exactly `demoChunk`. -/
def singletonState : StoreState := insertChunk emptyStore demoChunk 10

/-! ## Chunk length bounds (claim C3) -/

theorem mem_splitByCharGo_length_le (text : List Char) (size stride : Nat) :
    ∀ fuel start c, c ∈ splitByCharGo text size stride fuel start → c.length ≤ size := by
  intro fuel
  induction fuel with
  | zero => intro start c hc; simp [splitByCharGo] at hc
  | succ n ih =>
    intro start c hc
    rw [splitByCharGo] at hc
    split at hc
    · rcases List.mem_cons.mp hc with rfl | h
      · simpa using List.length_take_le _ _
      · exact ih _ _ h
    · simp at hc

theorem mem_splitByCharacter_length_le (s : List Char) (size ov : Nat) (c : List Char)
    (hc : c ∈ splitByCharacter s size ov) : c.length ≤ size :=
  mem_splitByCharGo_length_le s size (size - ov) _ 0 c hc

theorem trimStartJs_length_le (l : List Char) : (trimStartJs l).length ≤ l.length :=
  (List.dropWhile_sublist _).length_le

theorem trimEndJs_length_le (l : List Char) : (trimEndJs l).length ≤ l.length := by
  simpa [trimEndJs] using (List.dropWhile_sublist (l := l.reverse) isJsWhitespace).length_le

theorem trimJs_length_le (l : List Char) : (trimJs l).length ≤ l.length :=
  (trimEndJs_length_le _).trans (trimStartJs_length_le l)

theorem jsSliceNeg_length_le (l : List Char) (n : Nat) (h : 0 < n) :
    (jsSliceNeg l n).length ≤ n := by
  unfold jsSliceNeg
  rw [if_neg (Nat.pos_iff_ne_zero.mp h)]
  simp only [List.length_drop]
  omega

/-- Branch equation: a sentence larger than `chunkSize`. -/
theorem chunkStep_oversized (size ov : Nat) (st : ChunkAcc) (s : List Char)
    (h1 : size < s.length) :
    chunkStep size ov st s =
      { chunks := (if st.cur.isEmpty then st.chunks else st.chunks ++ [trimJs st.cur]) ++
          splitByCharacter s size ov, cur := [] } := by
  simp only [chunkStep, if_pos h1]

/-- Branch equation: the sentence closes the chunk and the new buffer is
seeded with the overlap tail of the previous chunk. -/
theorem chunkStep_close_seed (size ov : Nat) (st : ChunkAcc) (s : List Char)
    (h1 : ¬ size < s.length) (h2 : size < st.cur.length + s.length)
    (h3 : 0 < (if st.cur.isEmpty then st.chunks else st.chunks ++ [trimJs st.cur]).length ∧
      0 < ov) :
    chunkStep size ov st s =
      { chunks := if st.cur.isEmpty then st.chunks else st.chunks ++ [trimJs st.cur],
        cur := jsSliceNeg ((if st.cur.isEmpty then st.chunks
          else st.chunks ++ [trimJs st.cur]).getLastD []) ov ++ ' ' :: s } := by
  simp only [chunkStep, if_neg h1, if_pos h2, if_pos h3]

/-- Branch equation: the sentence closes the chunk and no overlap seeding
applies. -/
theorem chunkStep_close_noseed (size ov : Nat) (st : ChunkAcc) (s : List Char)
    (h1 : ¬ size < s.length) (h2 : size < st.cur.length + s.length)
    (h3 : ¬ (0 < (if st.cur.isEmpty then st.chunks
      else st.chunks ++ [trimJs st.cur]).length ∧ 0 < ov)) :
    chunkStep size ov st s =
      { chunks := if st.cur.isEmpty then st.chunks else st.chunks ++ [trimJs st.cur],
        cur := s } := by
  simp only [chunkStep, if_neg h1, if_pos h2, if_neg h3]

/-- Branch equation: the sentence is appended to the running buffer. -/
theorem chunkStep_append (size ov : Nat) (st : ChunkAcc) (s : List Char)
    (h1 : ¬ size < s.length) (h2 : ¬ size < st.cur.length + s.length) :
    chunkStep size ov st s =
      { chunks := st.chunks,
        cur := st.cur ++ (if st.cur.isEmpty then s else ' ' :: s) } := by
  simp only [chunkStep, if_neg h1, if_neg h2]

theorem chunkStep_inv (size ov : Nat) (st : ChunkAcc) (s : List Char)
    (hinv : ChunkInv size ov st) : ChunkInv size ov (chunkStep size ov st s) := by
  obtain ⟨hcur, hchunks⟩ := hinv
  have hpush : ∀ c ∈ (if st.cur.isEmpty then st.chunks else st.chunks ++ [trimJs st.cur]),
      c.length ≤ size + ov + 1 := by
    intro c hc
    split at hc
    · exact hchunks c hc
    · rcases List.mem_append.mp hc with h | h
      · exact hchunks c h
      · rcases List.mem_singleton.mp h with rfl
        exact (trimJs_length_le _).trans hcur
  by_cases h1 : size < s.length
  · rw [chunkStep_oversized size ov st s h1]
    refine ⟨by simp, ?_⟩
    intro c hc
    rcases List.mem_append.mp hc with h | h
    · exact hpush c h
    · exact (mem_splitByCharacter_length_le _ _ _ _ h).trans (by omega)
  · by_cases h2 : size < st.cur.length + s.length
    · by_cases h3 : 0 < (if st.cur.isEmpty then st.chunks
        else st.chunks ++ [trimJs st.cur]).length ∧ 0 < ov
      · rw [chunkStep_close_seed size ov st s h1 h2 h3]
        refine ⟨?_, hpush⟩
        simp only [List.length_append, List.length_cons]
        have := jsSliceNeg_length_le ((if st.cur.isEmpty then st.chunks
          else st.chunks ++ [trimJs st.cur]).getLastD []) ov h3.2
        omega
      · rw [chunkStep_close_noseed size ov st s h1 h2 h3]
        refine ⟨?_, hpush⟩
        show s.length ≤ size + ov + 1
        omega
    · rw [chunkStep_append size ov st s h1 h2]
      refine ⟨?_, hchunks⟩
      split <;> simp only [List.length_append, List.length_cons] <;> omega

theorem foldl_chunkStep_inv (size ov : Nat) (l : List (List Char)) :
    ∀ st, ChunkInv size ov st → ChunkInv size ov (l.foldl (chunkStep size ov) st) := by
  induction l with
  | nil => intro st h; exact h
  | cons s t ih => intro st h; exact ih _ (chunkStep_inv size ov st s h)

/-- C3 counterexample. The claim fails twice on the code.  (1) On the
sentence-boundary path with `chunkSize = 10`, `chunkOverlap = 5`, the text
`"aaaaaaaaa. bbbbbbbbb. c."` — whose sentence units all fit in 10 characters,
so the character-split fallback never runs — produces the chunk
`"aaaa. bbbbbbbbb."` of length 16 > 10: the overlap-seeded buffer
(overlap tail + space + next sentence) is pushed unchecked.  (2) On the
oversized-unit path, 25 `a`s with `chunkSize = 10`, `chunkOverlap = 2` give
window lengths `[10, 10, 9, 1]`: the third piece is neither the last nor of
length exactly 10, because the windows shrink as the stride passes the end. -/
theorem chunkText_piece_exceeds_size_cx :
    (5 : Nat) < 10 ∧ (2 : Nat) < 10 ∧
    (∀ s ∈ splitSentences (normalizeNewlines "aaaaaaaaa. bbbbbbbbb. c.".toList),
      s.length ≤ 10) ∧
    (chunkText "aaaaaaaaa. bbbbbbbbb. c.".toList 10 5)[1]? =
      some "aaaa. bbbbbbbbb.".toList ∧
    ("aaaa. bbbbbbbbb.".toList).length = 16 ∧
    (chunkText (List.replicate 25 'a') 10 2).map List.length = [10, 10, 9, 1] := by
  decide

/-- C3 (amended). For `0 ≤ overlap < size`, every chunk produced by
`chunkText` has length at most `size + overlap + 1` (the overlap-seeded
buffer can exceed `size` by the overlap plus the separating space), and every
piece produced by splitting an oversized unit has length at most `size`
(exactly `size` until the sliding window reaches the end of the unit, after
which the windows shrink). -/
theorem chunkText_length_bound (text : List Char) (size ov : Nat) (hov : ov < size) :
    (∀ c ∈ chunkText text size ov, c.length ≤ size + ov + 1) ∧
    (∀ s c, c ∈ splitByCharacter s size ov → c.length ≤ size) := by
  constructor
  · intro c hc
    unfold chunkText at hc
    have hinv := foldl_chunkStep_inv size ov (splitSentences (normalizeNewlines text))
      ⟨[], []⟩ ⟨by simp, by simp⟩
    rcases List.mem_filter.mp hc with ⟨hmem, -⟩
    revert hmem
    split
    · intro hmem; exact hinv.2 c hmem
    · intro hmem
      rcases List.mem_append.mp hmem with h | h
      · exact hinv.2 c h
      · rcases List.mem_singleton.mp h with rfl
        exact (trimJs_length_le _).trans hinv.1
  · intro s c hc
    exact mem_splitByCharacter_length_le s size ov c hc

/-- Witness for `chunkText_length_bound` at `size = 10`, `overlap = 5`. -/
theorem chunkText_length_bound_witness :
    (5 : Nat) < 10 ∧
    ((∀ c ∈ chunkText "aaaaaaaaa. bbbbbbbbb. c.".toList 10 5, c.length ≤ 16) ∧
     (∀ s c, c ∈ splitByCharacter s 10 5 → c.length ≤ 10)) :=
  ⟨by decide, chunkText_length_bound "aaaaaaaaa. bbbbbbbbb. c.".toList 10 5 (by decide)⟩

/-! ## Whitespace-only inputs (claim C10) -/

theorem ws_not_sentenceEnd (c : Char) (h : isJsWhitespace c = true) :
    isSentenceEnd c = false := by
  by_contra hne
  have h2 : isSentenceEnd c = true := by simpa using hne
  simp only [isSentenceEnd, Bool.or_eq_true, decide_eq_true_eq] at h2
  rcases h2 with (rfl | rfl) | rfl <;> simp [isJsWhitespace] at h

theorem normalizeNewlines_ws (l : List Char) (h : ∀ c ∈ l, isJsWhitespace c = true) :
    ∀ c ∈ normalizeNewlines l, isJsWhitespace c = true := by
  induction l using normalizeNewlines.induct with
  | case1 => intro c hc; simp [normalizeNewlines] at hc
  | case2 rest ih =>
    intro c hc
    rw [show normalizeNewlines ('\r' :: '\n' :: rest) = '\n' :: normalizeNewlines rest
      from rfl] at hc
    rcases List.mem_cons.mp hc with rfl | hmem
    · decide
    · exact ih (fun d hd => h d (List.mem_cons_of_mem _ (List.mem_cons_of_mem _ hd))) c hmem
  | case3 rest hne ih =>
    intro c hc
    rw [normalizeNewlines] at hc
    · rcases List.mem_cons.mp hc with rfl | hmem
      · decide
      · exact ih (fun d hd => h d (List.mem_cons_of_mem _ hd)) c hmem
    · exact hne
  | case4 d rest hne1 hne2 ih =>
    intro c hc
    rw [normalizeNewlines] at hc
    · rcases List.mem_cons.mp hc with rfl | hmem
      · exact h c (List.mem_cons_self c rest)
      · exact ih (fun e he => h e (List.mem_cons_of_mem _ he)) c hmem
    · exact hne1
    · exact hne2

theorem normalizeNewlines_length_le (l : List Char) :
    (normalizeNewlines l).length ≤ l.length := by
  induction l using normalizeNewlines.induct with
  | case1 => simp [normalizeNewlines]
  | case2 rest ih =>
    rw [show normalizeNewlines ('\r' :: '\n' :: rest) = '\n' :: normalizeNewlines rest
      from rfl]
    simp only [List.length_cons]
    omega
  | case3 rest hne ih =>
    rw [normalizeNewlines]
    · simp only [List.length_cons]; omega
    · exact hne
  | case4 d rest hne1 hne2 ih =>
    rw [normalizeNewlines]
    · simp only [List.length_cons]; omega
    · exact hne1
    · exact hne2

theorem splitSentencesGo_no_end :
    ∀ (fuel : Nat) (l acc : List Char), (∀ c ∈ l, isSentenceEnd c = false) →
      splitSentencesGo fuel l acc = [acc.reverse ++ l] := by
  intro fuel
  induction fuel with
  | zero =>
    intro l acc h
    cases l with
    | nil => simp [splitSentencesGo]
    | cons c rest => rfl
  | succ n ih =>
    intro l acc h
    cases l with
    | nil => simp [splitSentencesGo]
    | cons c rest =>
      rw [splitSentencesGo]
      have hc : isSentenceEnd c = false := h c (List.mem_cons_self c rest)
      rw [hc]
      simp only [Bool.false_and, if_false]
      rw [ih rest (c :: acc) (fun d hd => h d (List.mem_cons_of_mem _ hd))]
      simp

theorem trimJs_ws_nil (l : List Char) (h : ∀ c ∈ l, isJsWhitespace c = true) :
    trimJs l = [] := by
  have h1 : trimStartJs l = [] := by
    unfold trimStartJs
    exact List.dropWhile_eq_nil_iff.mpr h
  rw [trimJs, h1]
  rfl

/-- C10 counterexample. A whitespace-only text longer than `size` takes the
oversized-unit path (the whole text is one sentence unit) and produces
whitespace-only chunks, which the final `length > 0` filter keeps: with
`size = 1`, `overlap = 0` the two-space text yields two one-space chunks, not
the empty sequence. -/
theorem chunkText_whitespace_cx :
    (∀ c ∈ "  ".toList, isJsWhitespace c) ∧ (0 : Nat) < 1 ∧
    chunkText "  ".toList 1 0 = [" ".toList, " ".toList] ∧
    chunkText "  ".toList 1 0 ≠ [] := by decide

/-- C10 (amended). For whitespace-only text of length at most `size`
(including the empty string) and `0 ≤ overlap < size`, `chunkText` returns the
empty sequence: the single whitespace sentence unit fits the buffer and the
final `trim` empties it, so nothing survives the filter.  (Whitespace-only
texts longer than `size` are character-split instead and do produce chunks,
so the pipeline's skip-files-with-zero-chunks step fires exactly for blank
files no longer than one chunk.) -/
theorem chunkText_whitespace_empty (text : List Char) (size ov : Nat) (hov : ov < size)
    (hws : ∀ c ∈ text, isJsWhitespace c = true) (hlen : text.length ≤ size) :
    chunkText text size ov = [] := by
  have hnws := normalizeNewlines_ws text hws
  have hnlen : (normalizeNewlines text).length ≤ size :=
    (normalizeNewlines_length_le text).trans hlen
  have hsent : splitSentences (normalizeNewlines text) = [normalizeNewlines text] := by
    unfold splitSentences
    exact splitSentencesGo_no_end _ _ [] (fun c hc => ws_not_sentenceEnd c (hnws c hc))
  unfold chunkText
  rw [hsent]
  simp only [List.foldl]
  rw [chunkStep_append size ov ⟨[], []⟩ (normalizeNewlines text)
    (by simp; omega) (by simp; omega)]
  have ht : trimJs (normalizeNewlines text) = [] := trimJs_ws_nil _ hnws
  simp [ht]

/-- Witness for `chunkText_whitespace_empty` at the one-space text,
`size = 1`, `overlap = 0`. -/
theorem chunkText_whitespace_empty_witness :
    (0 : Nat) < 1 ∧ (∀ c ∈ " ".toList, isJsWhitespace c = true) ∧
    " ".toList.length ≤ 1 ∧ chunkText " ".toList 1 0 = [] :=
  ⟨by decide, by decide, by decide,
    chunkText_whitespace_empty " ".toList 1 0 (by decide) (by decide) (by decide)⟩

/-! ## The overlap prefix property (claim C6) -/

theorem head?_dropWhile_false (p : Char → Bool) (l : List Char) (c : Char)
    (h : (l.dropWhile p).head? = some c) : p c = false := by
  induction l with
  | nil => simp [List.dropWhile] at h
  | cons a t ih =>
    rw [List.dropWhile_cons] at h
    split at h
    · exact ih h
    · rename_i hp
      simp only [List.head?_cons, Option.some_inj] at h
      subst h
      simpa using hp

theorem dropWhile_append_not_head (p : Char → Bool) (a b : List Char) (c : Char)
    (hc : p c = false) : (a ++ c :: b).dropWhile p = a.dropWhile p ++ c :: b := by
  induction a with
  | nil => simp [List.dropWhile_cons, hc]
  | cons x t ih =>
    simp only [List.cons_append, List.dropWhile_cons]
    by_cases hx : p x
    · simpa [hx] using ih
    · simp [hx]

theorem trimStartJs_append (w r : List Char) (hw : trimStartJs w ≠ []) :
    trimStartJs (w ++ r) = trimStartJs w ++ r := by
  induction w with
  | nil => simp [trimStartJs] at hw
  | cons x t ih =>
    unfold trimStartJs at *
    by_cases hx : isJsWhitespace x
    · rw [List.cons_append, List.dropWhile_cons_of_pos hx, List.dropWhile_cons_of_pos hx]
      exact ih (by simpa [List.dropWhile_cons_of_pos hx] using hw)
    · rw [List.cons_append, List.dropWhile_cons_of_neg hx, List.dropWhile_cons_of_neg hx]
      simp

theorem trimEndJs_append (x r : List Char) (c : Char) (hc : x.getLast? = some c)
    (hw : isJsWhitespace c = false) : trimEndJs (x ++ r) = x ++ trimEndJs r := by
  unfold trimEndJs
  rw [List.reverse_append]
  have hx : x.reverse.head? = some c := by rw [List.head?_reverse]; exact hc
  obtain ⟨t, ht⟩ : ∃ t, x.reverse = c :: t := by
    cases hxr : x.reverse with
    | nil => rw [hxr] at hx; simp at hx
    | cons d t =>
      rw [hxr] at hx
      simp only [List.head?_cons, Option.some_inj] at hx
      exact ⟨t, by rw [hx]⟩
  rw [ht, dropWhile_append_not_head _ _ _ _ hw, List.reverse_append, ← ht,
    List.reverse_reverse]

theorem getLast?_trimEndJs (l : List Char) (c : Char)
    (h : (trimEndJs l).getLast? = some c) : isJsWhitespace c = false := by
  unfold trimEndJs at h
  rw [List.getLast?_reverse] at h
  exact head?_dropWhile_false _ _ _ h

theorem getLast?_of_trimmed (p : List Char) (c : Char) (hp : trimJs p = p)
    (h : p.getLast? = some c) : isJsWhitespace c = false := by
  rw [← hp] at h
  exact getLast?_trimEndJs _ _ h

theorem getLast?_jsSliceNeg (p : List Char) (ov : Nat) :
    jsSliceNeg p ov = [] ∨ (jsSliceNeg p ov).getLast? = p.getLast? := by
  unfold jsSliceNeg
  split
  · right; rfl
  · by_cases hd : p.drop (p.length - ov) = []
    · left; exact hd
    · right
      conv_rhs => rw [← List.take_append_drop (p.length - ov) p]
      rw [List.getLast?_append_of_ne_nil _ hd]

/-- The core overlap lemma: when a trimmed chunk `p` seeds a new buffer with
its overlap tail, a space, and any subsequently appended text, then trimming
the final buffer keeps the overlap tail (leading whitespace stripped) as a
prefix. -/
theorem seed_prefix (p tail : List Char) (ov : Nat) (hp : trimJs p = p) :
    trimStartJs (jsSliceNeg p ov) <+: trimJs (jsSliceNeg p ov ++ ' ' :: tail) := by
  rcases getLast?_jsSliceNeg p ov with hnil | hlast
  · rw [hnil]
    exact List.nil_prefix
  · cases hpl : p.getLast? with
    | none =>
      have hpe : p = [] := List.getLast?_eq_none_iff.mp hpl
      have hnil : jsSliceNeg p ov = [] := by
        subst hpe
        unfold jsSliceNeg
        split <;> simp
      rw [hnil]
      exact List.nil_prefix
    | some c =>
      have hcw : isJsWhitespace c = false := getLast?_of_trimmed p c hp hpl
      have hwlast : (jsSliceNeg p ov).getLast? = some c := by rw [hlast, hpl]
      have hts : trimStartJs (jsSliceNeg p ov) ≠ [] := by
        intro h
        have hall : ∀ x ∈ jsSliceNeg p ov, isJsWhitespace x = true :=
          List.dropWhile_eq_nil_iff.mp h
        have hcmem : c ∈ jsSliceNeg p ov := List.mem_of_mem_getLast? hwlast
        rw [hall c hcmem] at hcw
        cases hcw
      have htlast : (trimStartJs (jsSliceNeg p ov)).getLast? = some c := by
        have hts2 : List.dropWhile isJsWhitespace (jsSliceNeg p ov) ≠ [] := hts
        conv at hwlast =>
          lhs
          rw [← List.takeWhile_append_dropWhile isJsWhitespace (jsSliceNeg p ov)]
        rw [List.getLast?_append_of_ne_nil _ hts2] at hwlast
        exact hwlast
      unfold trimJs
      rw [trimStartJs_append _ _ hts, trimEndJs_append _ _ c htlast hcw]
      exact ⟨_, rfl⟩

/-- Branch equation for the annotated step: oversized sentence. -/
theorem chunkStepA_oversized (size ov : Nat) (st : ChunkAccA) (s : List Char)
    (h1 : size < s.length) :
    chunkStepA size ov st s =
      { chunks := (if st.cur.isEmpty then st.chunks else st.chunks ++ [trimJs st.cur]) ++
          splitByCharacter s size ov,
        cur := [], origin := none,
        pairs := if st.cur.isEmpty then st.pairs
          else st.pairs ++ resolvePair st.origin (trimJs st.cur) } := by
  simp only [chunkStepA, if_pos h1]

/-- Branch equation for the annotated step: chunk closed, buffer seeded. -/
theorem chunkStepA_close_seed (size ov : Nat) (st : ChunkAccA) (s : List Char)
    (h1 : ¬ size < s.length) (h2 : size < st.cur.length + s.length)
    (h3 : 0 < (if st.cur.isEmpty then st.chunks
      else st.chunks ++ [trimJs st.cur]).length ∧ 0 < ov) :
    chunkStepA size ov st s =
      { chunks := if st.cur.isEmpty then st.chunks else st.chunks ++ [trimJs st.cur],
        cur := jsSliceNeg ((if st.cur.isEmpty then st.chunks
          else st.chunks ++ [trimJs st.cur]).getLastD []) ov ++ ' ' :: s,
        origin := some ((if st.cur.isEmpty then st.chunks
          else st.chunks ++ [trimJs st.cur]).getLastD []),
        pairs := if st.cur.isEmpty then st.pairs
          else st.pairs ++ resolvePair st.origin (trimJs st.cur) } := by
  simp only [chunkStepA, if_neg h1, if_pos h2, if_pos h3]

/-- Branch equation for the annotated step: chunk closed, no seeding. -/
theorem chunkStepA_close_noseed (size ov : Nat) (st : ChunkAccA) (s : List Char)
    (h1 : ¬ size < s.length) (h2 : size < st.cur.length + s.length)
    (h3 : ¬ (0 < (if st.cur.isEmpty then st.chunks
      else st.chunks ++ [trimJs st.cur]).length ∧ 0 < ov)) :
    chunkStepA size ov st s =
      { chunks := if st.cur.isEmpty then st.chunks else st.chunks ++ [trimJs st.cur],
        cur := s, origin := none,
        pairs := if st.cur.isEmpty then st.pairs
          else st.pairs ++ resolvePair st.origin (trimJs st.cur) } := by
  simp only [chunkStepA, if_neg h1, if_pos h2, if_neg h3]

/-- Branch equation for the annotated step: sentence appended to the buffer. -/
theorem chunkStepA_append (size ov : Nat) (st : ChunkAccA) (s : List Char)
    (h1 : ¬ size < s.length) (h2 : ¬ size < st.cur.length + s.length) :
    chunkStepA size ov st s =
      { chunks := st.chunks,
        cur := st.cur ++ (if st.cur.isEmpty then s else ' ' :: s),
        origin := st.origin, pairs := st.pairs } := by
  simp only [chunkStepA, if_neg h1, if_neg h2]

theorem chunkStepA_inv (size ov : Nat) (st : ChunkAccA) (s : List Char)
    (h : InvA ov st) : InvA ov (chunkStepA size ov st s) := by
  have hpairs1 : ∀ pr ∈ (if st.cur.isEmpty then st.pairs
      else st.pairs ++ resolvePair st.origin (trimJs st.cur)), GoodPair ov pr := by
    intro pr hpr
    split at hpr
    · exact h.1 pr hpr
    · rcases List.mem_append.mp hpr with hm | hm
      · exact h.1 pr hm
      · cases ho : st.origin with
        | none => rw [ho] at hm; simp [resolvePair] at hm
        | some p =>
          rw [ho] at hm
          simp only [resolvePair, List.mem_singleton] at hm
          subst hm
          intro hptrim
          obtain ⟨tail, htail⟩ := h.2 p ho
          rw [htail]
          exact seed_prefix p tail ov hptrim
  by_cases h1 : size < s.length
  · rw [chunkStepA_oversized size ov st s h1]
    refine ⟨hpairs1, ?_⟩
    intro p hp
    simp at hp
  · by_cases h2 : size < st.cur.length + s.length
    · by_cases h3 : 0 < (if st.cur.isEmpty then st.chunks
        else st.chunks ++ [trimJs st.cur]).length ∧ 0 < ov
      · rw [chunkStepA_close_seed size ov st s h1 h2 h3]
        refine ⟨hpairs1, ?_⟩
        intro p hp
        have hp2 : some ((if st.cur.isEmpty then st.chunks
            else st.chunks ++ [trimJs st.cur]).getLastD []) = some p := hp
        obtain rfl := Option.some_inj.mp hp2
        exact ⟨s, rfl⟩
      · rw [chunkStepA_close_noseed size ov st s h1 h2 h3]
        refine ⟨hpairs1, ?_⟩
        intro p hp
        simp at hp
    · rw [chunkStepA_append size ov st s h1 h2]
      refine ⟨h.1, ?_⟩
      intro p hp
      have hp2 : st.origin = some p := hp
      obtain ⟨tail, htail⟩ := h.2 p hp2
      have hne : st.cur.isEmpty = false := by
        rw [htail]
        cases hjs : jsSliceNeg p ov <;> simp
      refine ⟨tail ++ ' ' :: s, ?_⟩
      show st.cur ++ (if st.cur.isEmpty then s else ' ' :: s) = _
      rw [hne, htail]
      simp

theorem foldl_chunkStepA_inv (size ov : Nat) (l : List (List Char)) :
    ∀ st, InvA ov st → InvA ov (l.foldl (chunkStepA size ov) st) := by
  induction l with
  | nil => intro st h; exact h
  | cons s t ih => intro st h; exact ih _ (chunkStepA_inv size ov st s h)

theorem eraseA_chunkStepA (size ov : Nat) (st : ChunkAccA) (s : List Char) :
    eraseA (chunkStepA size ov st s) = chunkStep size ov (eraseA st) s := by
  by_cases h1 : size < s.length
  · simp only [chunkStepA, chunkStep, eraseA, if_pos h1]
  · by_cases h2 : size < st.cur.length + s.length
    · by_cases h3 : 0 < (if st.cur.isEmpty then st.chunks
        else st.chunks ++ [trimJs st.cur]).length ∧ 0 < ov
      · simp only [chunkStepA, chunkStep, eraseA, if_neg h1, if_pos h2, if_pos h3]
      · simp only [chunkStepA, chunkStep, eraseA, if_neg h1, if_pos h2, if_neg h3]
    · simp only [chunkStepA, chunkStep, eraseA, if_neg h1, if_neg h2]

theorem eraseA_foldl (size ov : Nat) (l : List (List Char)) :
    ∀ st, eraseA (l.foldl (chunkStepA size ov) st) =
      l.foldl (chunkStep size ov) (eraseA st) := by
  induction l with
  | nil => intro st; rfl
  | cons s t ih =>
    intro st
    rw [List.foldl_cons, List.foldl_cons, ih, eraseA_chunkStepA]

theorem chunkTextA_fst (text : List Char) (size ov : Nat) :
    (chunkTextA text size ov).1 = chunkText text size ov := by
  have he := eraseA_foldl size ov (splitSentences (normalizeNewlines text)) ⟨[], [], none, []⟩
  have hch := congrArg ChunkAcc.chunks he
  have hcu := congrArg ChunkAcc.cur he
  simp only [eraseA] at hch hcu
  simp only [chunkTextA, chunkText]
  rw [hch, hcu]

/-- C6 counterexample. With `chunkSize = 10`, `chunkOverlap = 3`, the text
`"aaaa. x. yyy."` stays entirely on the sentence-boundary path (every sentence
unit fits in 10 characters) and produces the adjacent chunks `"aaaa. x."` and
`"x. yyy."`, the second seeded from the first.  The last 3 characters of the
first chunk are `" x."`, which — because the seeded buffer is `trim`med when
pushed — is not a prefix of the second chunk, with or without the single
inserted separating space. -/
theorem chunkText_overlap_prefix_cx :
    (0 : Nat) < 3 ∧ (3 : Nat) < 10 ∧
    (∀ s ∈ splitSentences (normalizeNewlines "aaaa. x. yyy.".toList), s.length ≤ 10) ∧
    chunkText "aaaa. x. yyy.".toList 10 3 = ["aaaa. x.".toList, "x. yyy.".toList] ∧
    (chunkTextA "aaaa. x. yyy.".toList 10 3).2 =
      [("aaaa. x.".toList, "x. yyy.".toList)] ∧
    ¬ (jsSliceNeg "aaaa. x.".toList 3 <+: "x. yyy.".toList) ∧
    ¬ ((jsSliceNeg "aaaa. x.".toList 3 ++ [' ']) <+: "x. yyy.".toList) := by decide

/-- C6 (amended). Erasing the annotations of `chunkTextA` gives exactly
`chunkText`, and for every recorded overlap seed pair `(cᵢ, cᵢ₊₁)` — a chunk
and the next chunk whose buffer was seeded from it on the sentence-boundary
path — with `cᵢ` a trimmed chunk (as every chunk produced by that path is),
the last `overlap` characters of `cᵢ` *after stripping their leading
whitespace* are a prefix of `cᵢ₊₁`; the unstripped overlap tail need not be,
because the seeded buffer is `trim`med when pushed. -/
theorem chunkText_overlap_prefix_amended (text : List Char) (size ov : Nat) :
    (chunkTextA text size ov).1 = chunkText text size ov ∧
    ∀ pr ∈ (chunkTextA text size ov).2, trimJs pr.1 = pr.1 →
      trimStartJs (jsSliceNeg pr.1 ov) <+: pr.2 := by
  refine ⟨chunkTextA_fst text size ov, ?_⟩
  have hinv := foldl_chunkStepA_inv size ov (splitSentences (normalizeNewlines text))
    ⟨[], [], none, []⟩ ⟨by intro pr hpr; simp at hpr, by intro p hp; simp at hp⟩
  intro pr hpr hptrim
  simp only [chunkTextA] at hpr
  split at hpr
  · exact hinv.1 pr hpr hptrim
  · rcases List.mem_append.mp hpr with hm | hm
    · exact hinv.1 pr hm hptrim
    · cases ho : (List.foldl (chunkStepA size ov) ⟨[], [], none, []⟩
        (splitSentences (normalizeNewlines text))).origin with
      | none => rw [ho] at hm; simp [resolvePair] at hm
      | some p =>
        rw [ho] at hm
        simp only [resolvePair, List.mem_singleton] at hm
        subst hm
        obtain ⟨tail, htail⟩ := hinv.2 p ho
        rw [htail]
        exact seed_prefix p tail ov hptrim

/-- Witness for `chunkText_overlap_prefix_amended` on the counterexample's
input: the stripped overlap tail `"x."` is a prefix of `"x. yyy."`. -/
theorem chunkText_overlap_prefix_amended_witness :
    ("aaaa. x.".toList, "x. yyy.".toList) ∈ (chunkTextA "aaaa. x. yyy.".toList 10 3).2 ∧
    trimJs "aaaa. x.".toList = "aaaa. x.".toList ∧
    trimStartJs (jsSliceNeg "aaaa. x.".toList 3) <+: "x. yyy.".toList :=
  ⟨by decide, by decide,
    (chunkText_overlap_prefix_amended "aaaa. x. yyy.".toList 10 3).2
      ("aaaa. x.".toList, "x. yyy.".toList) (by decide) (by decide)⟩

/-! ## Embedding batcher (claim C7) -/

theorem generateEmbeddingsGo_eq_map (f : α → β) :
    ∀ (n : Nat) (l : List α), l.length ≤ n → generateEmbeddingsGo f n l = l.map f := by
  intro n
  induction n with
  | zero =>
    intro l h
    have hl : l = [] := List.eq_nil_of_length_eq_zero (Nat.le_zero.mp h)
    subst hl
    rfl
  | succ n ih =>
    intro l h
    cases l with
    | nil => rfl
    | cons a t =>
      have h2 : t.length + 1 ≤ n + 1 := by simpa using h
      rw [generateEmbeddingsGo]
      rw [ih ((a :: t).drop 100) (by simp only [List.length_drop, List.length_cons]; omega)]
      rw [← List.map_append, List.take_append_drop]

/-- C7 (confirmed). Assuming the embedding API answers each batch with one
vector per input, in input order — modelled by the per-text response function
`f` — the batched `generateEmbeddings` equals the naive per-text map, so the
output has one vector per input text, in input order, regardless of the
batch boundaries at multiples of 100; and `generateEmbedding t` is the head
of `generateEmbeddings [t]`, namely `f t`. -/
theorem generateEmbeddings_eq_map (f : α → β) (texts : List α) :
    generateEmbeddings f texts = texts.map f ∧
    ∀ t : α, generateEmbedding f t = some (f t) := by
  constructor
  · exact generateEmbeddingsGo_eq_map f texts.length texts le_rfl
  · intro t
    unfold generateEmbedding generateEmbeddings
    rw [generateEmbeddingsGo_eq_map f _ _ le_rfl]
    rfl

/-! ## Query assembly (claim C9) -/

theorem withIdx_map_label (cs : List QueryChunk) :
    ∀ n : Nat, (withIdx cs n).map
        (fun ci => "[" ++ toString (ci.2 + 1) ++ "] " ++ ci.1.content) =
      labelFrom (n + 1) (cs.map (fun c => c.content)) := by
  induction cs with
  | nil => intro n; rfl
  | cons c t ih =>
    intro n
    simp only [withIdx, List.map_cons, labelFrom, ih (n + 1)]

theorem firstOccurDedupGo_fuel_irrel [DecidableEq α] :
    ∀ (n : Nat) (l : List α), l.length ≤ n → ∀ m, l.length ≤ m →
      firstOccurDedupGo n l = firstOccurDedupGo m l := by
  intro n
  induction n with
  | zero =>
    intro l h m hm
    have hl : l = [] := List.eq_nil_of_length_eq_zero (Nat.le_zero.mp h)
    subst hl
    cases m <;> rfl
  | succ n ih =>
    intro l h m hm
    cases l with
    | nil => cases m <;> rfl
    | cons a t =>
      cases m with
      | zero => simp at hm
      | succ m =>
        have hfl : (t.filter (fun x => !(decide (x = a)))).length ≤ t.length :=
          List.length_filter_le _ _
        have h1 : t.length ≤ n := by simp only [List.length_cons] at h; omega
        have h2 : t.length ≤ m := by simp only [List.length_cons] at hm; omega
        rw [firstOccurDedupGo, firstOccurDedupGo]
        congr 1
        exact ih _ (hfl.trans h1) m (hfl.trans h2)

theorem firstOccurDedup_cons [DecidableEq α] (a : α) (t : List α) :
    firstOccurDedup (a :: t) =
      a :: firstOccurDedup (t.filter (fun x => !(decide (x = a)))) := by
  unfold firstOccurDedup
  rw [show (a :: t).length = t.length + 1 from rfl, firstOccurDedupGo]
  congr 1
  exact firstOccurDedupGo_fuel_irrel t.length _ (List.length_filter_le _ _) _ le_rfl

theorem jsSetDedup_go [DecidableEq α] (l : List α) :
    ∀ acc : List α,
      l.foldl (fun a x => if x ∈ a then a else a ++ [x]) acc =
        acc ++ firstOccurDedup (l.filter (fun x => !(decide (x ∈ acc)))) := by
  induction l with
  | nil => intro acc; simp [firstOccurDedup, firstOccurDedupGo]
  | cons x t ih =>
    intro acc
    rw [List.foldl_cons]
    by_cases hx : x ∈ acc
    · rw [if_pos hx, ih acc, List.filter_cons]
      simp [hx]
    · rw [if_neg hx, ih (acc ++ [x])]
      rw [List.filter_cons]
      have hkeep : (!(decide (x ∈ acc))) = true := by simp [hx]
      rw [hkeep, if_pos rfl, firstOccurDedup_cons]
      have hfe : (t.filter (fun y => !(decide (y ∈ acc)))).filter
          (fun y => !(decide (y = x))) = t.filter (fun y => !(decide (y ∈ acc ++ [x]))) := by
        rw [List.filter_filter]
        apply List.filter_congr
        intro y hy
        simp only [List.mem_append, List.mem_singleton]
        by_cases h1 : y = x
        · simp [h1]
        · by_cases h2 : y ∈ acc <;> simp [h1, h2]
      rw [hfe]
      simp

/-- C9 (confirmed). For every search result list, the pure assembly tail of
`queryRag` returns exactly the specified pair: the context text is the
returned chunks' contents in rank order, each prefixed with its 1-based rank
as `[i] ` and joined by blank lines, and the citation list is the distinct
`filePath` values of the returned chunks in first-occurrence order. -/
theorem queryAssemble_spec (results : List QueryChunk) :
    queryAssemble results =
      (contextSpec results, firstOccurDedup (results.map (fun c => c.filePath))) := by
  unfold queryAssemble contextSpec contextText jsSetDedup
  refine Prod.ext ?_ ?_
  · show String.intercalate "\n\n" _ = String.intercalate "\n\n" _
    rw [withIdx_map_label results 0]
  · show List.foldl _ [] _ = _
    rw [jsSetDedup_go _ []]
    simp

/-! ## Insert-or-replace and the orphaned vector row (claim C1) -/

/-- C1 (code bug).  Evaluating `insertChunk` at the failing input: re-inserting
the chunk with the same `(sourcePath, fingerprint)` pair `("a.txt", "h1")`.
`INSERT OR REPLACE` does overwrite the chunk row (one row remains, pointing at
the new vector row 2), but the vector row 1 inserted by the first call is
never deleted: it remains in `vec_chunks` referenced by no chunk row —
exactly the orphan the claim rules out. -/
theorem insertChunk_replace_orphans_vector_row :
    orphanState.chunks.length = 1 ∧
    (∀ r ∈ orphanState.chunks, r.file_path = "a.txt".toList ∧ r.hash = "h1".toList) ∧
    orphanState.vecs.map Prod.fst = [1, 2] ∧
    (∀ r ∈ orphanState.chunks, r.vec_rowid = some 2) ∧
    (∀ r ∈ orphanState.chunks, r.vec_rowid ≠ some 1) ∧
    (1, [(1 : ℚ)]) ∈ orphanState.vecs := by decide

/-! ## deleteChunksByFile: complete but not one atomic unit (claim C2) -/

/-- C2 (code bug).  Evaluating `deleteChunksByFile` on a store holding one
embedded chunk of source `a.txt`.  The completed operation is complete: the
source is gone from both tables, `fileExists` is false and `similaritySearch`
returns nothing.  But the removal is not one atomic unit: the vector rows are
deleted inside a transaction while the chunk rows are deleted by a separate
statement after it, so the state between the two steps — reachable by a crash
or error between them — still has `fileExists = true` while the chunk row's
vector is already gone (a dangling `vec_rowid`), a state that is neither the
pre-state nor the post-state. -/
theorem deleteChunksByFile_not_atomic_but_complete :
    (fileExists (deleteChunksByFile singletonState "a.txt".toList) "a.txt".toList = false ∧
     (deleteChunksByFile singletonState "a.txt".toList).chunks = [] ∧
     (deleteChunksByFile singletonState "a.txt".toList).vecs = [] ∧
     similaritySearch (fun _ _ => 0) (deleteChunksByFile singletonState "a.txt".toList)
       [1] 5 = []) ∧
    (fileExists (deleteVecStep singletonState "a.txt".toList) "a.txt".toList = true ∧
     (deleteVecStep singletonState "a.txt".toList).vecs = [] ∧
     deleteVecStep singletonState "a.txt".toList ≠ singletonState ∧
     deleteVecStep singletonState "a.txt".toList ≠
       deleteChunksByFile singletonState "a.txt".toList) := by decide

/-! ## Similarity search (claim C5) -/

/-- C5 counterexample.  In the reachable store `orphanState` (one chunk row,
two vector rows, row 1 orphaned by the replace of C1), a search with `k = 5`
returns 1 result, not `min(k, totalVectors) = 2`: the orphaned vector row is
excluded by the `JOIN` on `vec_rowid`. -/
theorem similaritySearch_count_cx :
    (similaritySearch (fun _ _ => 0) orphanState [1] 5).length = 1 ∧
    orphanState.vecs.length = 2 ∧
    min 5 orphanState.vecs.length = 2 := by decide

theorem length_withIdx (l : List α) : ∀ n, (withIdx l n).length = l.length := by
  induction l with
  | nil => intro n; rfl
  | cons a t ih => intro n; simp [withIdx, ih]

theorem mem_withIdx_snd_ge (l : List α) :
    ∀ n x, x ∈ withIdx l n → n ≤ x.2 := by
  induction l with
  | nil => intro n x hx; simp [withIdx] at hx
  | cons a t ih =>
    intro n x hx
    rcases List.mem_cons.mp hx with rfl | hmem
    · exact le_rfl
    · exact (Nat.le_succ n).trans (ih (n + 1) x hmem)

theorem pairwise_lt_withIdx (l : List α) :
    ∀ n, (withIdx l n).Pairwise (fun a b => a.2 < b.2) := by
  induction l with
  | nil => intro n; exact List.Pairwise.nil
  | cons a t ih =>
    intro n
    refine List.Pairwise.cons ?_ (ih (n + 1))
    intro x hx
    exact Nat.lt_of_lt_of_le (Nat.lt_succ_self n) (mem_withIdx_snd_ge t (n + 1) x hx)

theorem mem_withIdx_fst (l : List α) :
    ∀ n x, x ∈ withIdx l n → x.1 ∈ l := by
  induction l with
  | nil => intro n x hx; simp [withIdx] at hx
  | cons a t ih =>
    intro n x hx
    rcases List.mem_cons.mp hx with rfl | hmem
    · exact List.mem_cons_self a t
    · exact List.mem_cons_of_mem a (ih (n + 1) x hmem)

/-- C5 (amended).  For every distance function (standing for the sqlite-vec
`vec_distance_cosine`), store, query vector and `k`:
`similaritySearch` returns exactly `min k P` results where `P` is the number
of *paired* rows — chunk rows joined with the vector row they reference — not
the number of vector rows; the ranking is a permutation of the paired rows in
storage order that is sorted by ascending distance with ties broken by
storage order; and every returned row carries `similarity = 1 − distance` of
the paired row it came from. -/
theorem similaritySearch_spec (dist : List ℚ → List ℚ → ℚ) (st : StoreState)
    (q : List ℚ) (k : Nat) :
    (similaritySearch dist st q k).length = min k (joinRows st).length ∧
    List.Perm (sortedJoin dist st q) (withIdx (joinRows st) 0) ∧
    (sortedJoin dist st q).Pairwise (fun a b =>
      dist a.1.2 q < dist b.1.2 q ∨ (dist a.1.2 q = dist b.1.2 q ∧ a.2 < b.2)) ∧
    (∀ x ∈ similaritySearch dist st q k, ∃ pr ∈ joinRows st,
      x = ⟨pr.1.content, pr.1.file_path, 1 - dist pr.2 q⟩) := by
  have hperm : List.Perm (sortedJoin dist st q) (withIdx (joinRows st) 0) :=
    List.perm_insertionSort _ _
  have hsorted : (sortedJoin dist st q).Pairwise (searchRel dist q) :=
    List.sorted_insertionSort _ _
  have hne : (sortedJoin dist st q).Pairwise (fun a b => a.2 ≠ b.2) := by
    have hlt := pairwise_lt_withIdx (joinRows st) 0
    have hne0 : (withIdx (joinRows st) 0).Pairwise (fun a b => a.2 ≠ b.2) :=
      hlt.imp (fun h => Nat.ne_of_lt h)
    exact (List.Perm.pairwise_iff (fun hxy => Ne.symm hxy) hperm).mpr hne0
  refine ⟨?_, hperm, ?_, ?_⟩
  · unfold similaritySearch
    rw [List.length_map, List.length_take, hperm.length_eq, length_withIdx]
  · refine (hsorted.and hne).imp ?_
    rintro a b ⟨hr, hab⟩
    rcases hr with h | ⟨h1, h2⟩
    · exact Or.inl h
    · exact Or.inr ⟨h1, Nat.lt_of_le_of_ne h2 hab⟩
  · intro x hx
    unfold similaritySearch at hx
    rcases List.mem_map.mp hx with ⟨y, hy, rfl⟩
    have hy2 : y ∈ sortedJoin dist st q := List.take_subset _ _ hy
    have hy3 : y ∈ withIdx (joinRows st) 0 := hperm.mem_iff.mp hy2
    exact ⟨y.1, mem_withIdx_fst _ 0 y hy3, rfl⟩

/-! ## insertChunks atomicity (claim C4) -/

/-- Branch equation for `insertChunk` with an embedding. -/
theorem insertChunk_some (st : StoreState) (c : DocumentChunk) (now : Nat) (e : List ℚ)
    (he : c.embedding = some e) :
    insertChunk st c now =
      { chunks := st.chunks.filter
          (fun r => !(decide (r.file_path = c.filePath ∧ r.hash = c.hash))) ++
          [⟨st.nextChunkId, c.filePath, c.content, c.hash, some st.nextVecRowid, now⟩],
        vecs := st.vecs ++ [(st.nextVecRowid, e)],
        nextChunkId := st.nextChunkId + 1, nextVecRowid := st.nextVecRowid + 1 } := by
  simp only [insertChunk, he]

/-- Branch equation for `insertChunk` without an embedding. -/
theorem insertChunk_none (st : StoreState) (c : DocumentChunk) (now : Nat)
    (he : c.embedding = none) :
    insertChunk st c now =
      { chunks := st.chunks.filter
          (fun r => !(decide (r.file_path = c.filePath ∧ r.hash = c.hash))) ++
          [⟨st.nextChunkId, c.filePath, c.content, c.hash, none, now⟩],
        vecs := st.vecs,
        nextChunkId := st.nextChunkId + 1, nextVecRowid := st.nextVecRowid } := by
  simp only [insertChunk, he]

theorem chunkPresent_insert_self (st : StoreState) (c : DocumentChunk) (now : Nat) :
    chunkPresent (insertChunk st c now) c := by
  unfold chunkPresent
  cases hce : c.embedding with
  | some e =>
    rw [insertChunk_some st c now e hce]
    refine ⟨⟨st.nextChunkId, c.filePath, c.content, c.hash, some st.nextVecRowid, now⟩,
      List.mem_append_right _ (List.mem_singleton.mpr rfl), rfl, rfl, rfl, ?_⟩
    exact ⟨st.nextVecRowid, rfl, List.mem_append_right _ (List.mem_singleton.mpr rfl)⟩
  | none =>
    rw [insertChunk_none st c now hce]
    refine ⟨⟨st.nextChunkId, c.filePath, c.content, c.hash, none, now⟩,
      List.mem_append_right _ (List.mem_singleton.mpr rfl), rfl, rfl, rfl, rfl⟩

theorem chunkPresent_insert_preserve (st : StoreState) (c c' : DocumentChunk) (now : Nat)
    (hcc : c.filePath = c'.filePath → c.hash = c'.hash →
      c.content = c'.content ∧ c.embedding = c'.embedding)
    (h : chunkPresent st c) : chunkPresent (insertChunk st c' now) c := by
  obtain ⟨r, hr, hpath, hhash, hcontent, hemb⟩ := h
  by_cases heq : r.file_path = c'.filePath ∧ r.hash = c'.hash
  · -- the row is replaced, but then c and c' agree on content and embedding
    obtain ⟨hcon, hembeq⟩ := hcc (hpath ▸ heq.1) (hhash ▸ heq.2)
    have hself := chunkPresent_insert_self st c' now
    obtain ⟨r', hr', hp', hh', hc', he'⟩ := hself
    refine ⟨r', hr', ?_, ?_, ?_, ?_⟩
    · rw [hp', ← hpath, heq.1]
    · rw [hh', ← hhash, heq.2]
    · rw [hc', ← hcon]
    · rw [hembeq]
      exact he'
  · -- the row survives the REPLACE filter, and stored vectors are never removed
    unfold chunkPresent
    cases hce : c'.embedding with
    | some e =>
      rw [insertChunk_some st c' now e hce]
      refine ⟨r, List.mem_append_left _ (List.mem_filter.mpr ⟨hr, by rw [decide_eq_false heq]; rfl⟩),
        hpath, hhash, hcontent, ?_⟩
      cases hcem : c.embedding with
      | some e2 =>
        rw [hcem] at hemb
        obtain ⟨rid, hrid, hmem⟩ := hemb
        exact ⟨rid, hrid, List.mem_append_left _ hmem⟩
      | none =>
        rw [hcem] at hemb
        exact hemb
    | none =>
      rw [insertChunk_none st c' now hce]
      refine ⟨r, List.mem_append_left _ (List.mem_filter.mpr ⟨hr, by rw [decide_eq_false heq]; rfl⟩),
        hpath, hhash, hcontent, hemb⟩

theorem insertChunkChecked_some_eq (dim : Nat) (st : StoreState) (c : DocumentChunk)
    (now : Nat) (st' : StoreState) (h : insertChunkChecked dim st c now = some st') :
    st' = insertChunk st c now := by
  unfold insertChunkChecked at h
  cases hce : c.embedding with
  | some e =>
    rw [hce] at h
    have h2 : (if e.length = dim then some (insertChunk st c now) else none) = some st' := h
    by_cases hlen : e.length = dim
    · rw [if_pos hlen] at h2
      exact (Option.some_inj.mp h2).symm
    · rw [if_neg hlen] at h2
      cases h2
  | none =>
    rw [hce] at h
    exact (Option.some_inj.mp h).symm

theorem runInserts_preserves (dim now : Nat) :
    ∀ (t : List DocumentChunk) (st st' : StoreState),
      runInserts dim st t now = some st' →
      ∀ c : DocumentChunk,
        (∀ c' ∈ t, c.filePath = c'.filePath → c.hash = c'.hash →
          c.content = c'.content ∧ c.embedding = c'.embedding) →
        chunkPresent st c → chunkPresent st' c := by
  intro t
  induction t with
  | nil =>
    intro st st' h c hcc hp
    unfold runInserts at h
    simp only [List.foldlM_nil] at h
    exact (Option.some_inj.mp h) ▸ hp
  | cons c0 tt ih =>
    intro st st' h c hcc hp
    unfold runInserts at h
    rw [List.foldlM_cons] at h
    cases hchk : insertChunkChecked dim st c0 now with
    | none =>
      rw [hchk] at h
      exact Option.noConfusion h
    | some s1 =>
      rw [hchk] at h
      have h2 : runInserts dim s1 tt now = some st' := h
      have hs1 := insertChunkChecked_some_eq dim st c0 now s1 hchk
      refine ih s1 st' h2 c (fun c' hc' => hcc c' (List.mem_cons_of_mem _ hc')) ?_
      rw [hs1]
      exact chunkPresent_insert_preserve st c c0 now (hcc c0 (List.mem_cons_self c0 tt)) hp

theorem runInserts_present (dim now : Nat) :
    ∀ (cs : List DocumentChunk) (st st' : StoreState),
      runInserts dim st cs now = some st' →
      (∀ c ∈ cs, ∀ c' ∈ cs, c.filePath = c'.filePath → c.hash = c'.hash →
        c.content = c'.content ∧ c.embedding = c'.embedding) →
      ∀ c ∈ cs, chunkPresent st' c := by
  intro cs
  induction cs with
  | nil => intro st st' h hpair c hc; exact absurd hc (List.not_mem_nil c)
  | cons c0 t ih =>
    intro st st' h hpair c hc
    unfold runInserts at h
    rw [List.foldlM_cons] at h
    cases hchk : insertChunkChecked dim st c0 now with
    | none =>
      rw [hchk] at h
      exact Option.noConfusion h
    | some s1 =>
      rw [hchk] at h
      have h2 : runInserts dim s1 t now = some st' := h
      have hs1 := insertChunkChecked_some_eq dim st c0 now s1 hchk
      rcases List.mem_cons.mp hc with rfl | hct
      · have hp1 : chunkPresent s1 c := by
          rw [hs1]
          exact chunkPresent_insert_self st c now
        exact runInserts_preserves dim now t s1 st' h2 c
          (fun c' hc' => hpair c (List.mem_cons_self c t) c' (List.mem_cons_of_mem _ hc')) hp1
      · exact ih s1 st' h2
          (fun a ha a' ha' =>
            hpair a (List.mem_cons_of_mem _ ha) a' (List.mem_cons_of_mem _ ha')) c hct

/-- C4 (confirmed).  `insertChunks` wraps the batch in one transaction
(better-sqlite3 commits on success and rolls back to the starting state when
the body throws).  If every insert succeeds, the committed state contains
every chunk of the batch — its chunk row with path, fingerprint, content, and
its embedding stored in a referenced vector row; if any insert fails, the
store is exactly the starting state, so none of the batch's chunk rows or
vector rows are visible.  The hypothesis says the batch has no fingerprint
collision: chunks with equal (path, fingerprint) carry equal content and
embedding, which holds for fingerprints computed as content hashes of
deterministic per-file embeddings. -/
theorem insertChunks_atomic (dim : Nat) (st : StoreState) (cs : List DocumentChunk)
    (now : Nat)
    (hpair : ∀ c ∈ cs, ∀ c' ∈ cs, c.filePath = c'.filePath → c.hash = c'.hash →
      c.content = c'.content ∧ c.embedding = c'.embedding) :
    (∀ st', runInserts dim st cs now = some st' →
      insertChunks dim st cs now = st' ∧ ∀ c ∈ cs, chunkPresent st' c) ∧
    (runInserts dim st cs now = none → insertChunks dim st cs now = st) := by
  constructor
  · intro st' h
    refine ⟨?_, runInserts_present dim now cs st st' h hpair⟩
    unfold insertChunks
    rw [h]
  · intro h
    unfold insertChunks
    rw [h]

/-- Witness for `insertChunks_atomic`: the one-chunk batch `[demoChunk]` at
dimension 1 succeeds and produces `singletonState` with the chunk present. -/
theorem insertChunks_atomic_witness :
    (∀ c ∈ [demoChunk], ∀ c' ∈ [demoChunk],
      c.filePath = c'.filePath → c.hash = c'.hash →
      c.content = c'.content ∧ c.embedding = c'.embedding) ∧
    (insertChunks 1 emptyStore [demoChunk] 10 = singletonState ∧
      ∀ c ∈ [demoChunk], chunkPresent singletonState c) :=
  ⟨by decide,
    (insertChunks_atomic 1 emptyStore [demoChunk] 10 (by decide)).1 singletonState (by decide)⟩

/-! ## Reindexing removes deleted sources (claim C8) -/

theorem deleteChunksByFile_chunks_subset (st : StoreState) (p : List Char) :
    ∀ r ∈ (deleteChunksByFile st p).chunks, r ∈ st.chunks := by
  intro r hr
  exact List.mem_of_mem_filter hr

theorem noSource_delete_self (st : StoreState) (p : List Char) :
    noSource (deleteChunksByFile st p) p := by
  intro r hr
  have h := List.of_mem_filter hr
  simpa using h

theorem noSource_insertChunk (st : StoreState) (c : DocumentChunk) (now : Nat)
    (p : List Char) (hcp : c.filePath ≠ p) (h : noSource st p) :
    noSource (insertChunk st c now) p := by
  intro r hr
  cases hce : c.embedding with
  | some e =>
    rw [insertChunk_some st c now e hce] at hr
    rcases List.mem_append.mp hr with hm | hm
    · exact h r (List.mem_of_mem_filter hm)
    · rcases List.mem_singleton.mp hm with rfl
      exact hcp
  | none =>
    rw [insertChunk_none st c now hce] at hr
    rcases List.mem_append.mp hr with hm | hm
    · exact h r (List.mem_of_mem_filter hm)
    · rcases List.mem_singleton.mp hm with rfl
      exact hcp

theorem noSource_insertChunksOk (now : Nat) (p : List Char) :
    ∀ (cs : List DocumentChunk) (st : StoreState), (∀ c ∈ cs, c.filePath ≠ p) →
      noSource st p → noSource (insertChunksOk st cs now) p := by
  intro cs
  induction cs with
  | nil => intro st hcs h; exact h
  | cons c t ih =>
    intro st hcs h
    exact ih _ (fun c' hc' => hcs c' (List.mem_cons_of_mem _ hc'))
      (noSource_insertChunk st c now p (hcs c (List.mem_cons_self c t)) h)

theorem mkDocumentChunks_path (ef : List Char → List ℚ) (h : List Char → List Char)
    (p : List Char) (cs : List (List Char)) :
    ∀ c ∈ mkDocumentChunks ef h p cs, c.filePath = p := by
  unfold mkDocumentChunks
  generalize generateEmbeddings ef cs = es
  induction cs generalizing es with
  | nil => intro c hc; simp at hc
  | cons a t ih =>
    intro c hc
    cases es with
    | nil => simp at hc
    | cons e es2 =>
      rcases List.mem_cons.mp hc with rfl | hmem
      · rfl
      · exact ih es2 c hmem

theorem reindexDeleteLoop_spec (onDisk : List (List Char)) :
    ∀ (existing : List (List Char)) (st : StoreState) (u : Nat),
      (reindexDeleteLoop onDisk (st, u) existing).2 =
        u + existing.countP (fun p => !(decide (p ∈ onDisk))) ∧
      (∀ r ∈ (reindexDeleteLoop onDisk (st, u) existing).1.chunks, r ∈ st.chunks) ∧
      (∀ s ∈ existing, s ∉ onDisk →
        noSource (reindexDeleteLoop onDisk (st, u) existing).1 s) := by
  intro existing
  induction existing with
  | nil =>
    intro st u
    exact ⟨by simp [reindexDeleteLoop], fun r hr => hr, by simp⟩
  | cons p rest ih =>
    intro st u
    by_cases hp : p ∈ onDisk
    · rw [show reindexDeleteLoop onDisk (st, u) (p :: rest) =
        reindexDeleteLoop onDisk (st, u) rest from by rw [reindexDeleteLoop, if_pos hp]]
      obtain ⟨h1, h2, h3⟩ := ih st u
      refine ⟨?_, h2, ?_⟩
      · rw [h1, List.countP_cons]
        simp [hp]
      · intro s hs hsd
        rcases List.mem_cons.mp hs with rfl | hmem
        · exact absurd hp hsd
        · exact h3 s hmem hsd
    · rw [show reindexDeleteLoop onDisk (st, u) (p :: rest) =
        reindexDeleteLoop onDisk (deleteChunksByFile st p, u + 1) rest from by
          rw [reindexDeleteLoop, if_neg hp]]
      obtain ⟨h1, h2, h3⟩ := ih (deleteChunksByFile st p) (u + 1)
      refine ⟨?_, ?_, ?_⟩
      · rw [h1, List.countP_cons]
        simp only [hp, decide_False, Bool.not_false, if_pos]
        omega
      · intro r hr
        exact deleteChunksByFile_chunks_subset st p r (h2 r hr)
      · intro s hs hsd
        rcases List.mem_cons.mp hs with rfl | hmem
        · intro r hr
          exact noSource_delete_self st s r (h2 r hr)
        · exact h3 s hmem hsd

/-- Branch equation for `reindexFileStep`: the file chunks to nothing. -/
theorem reindexFileStep_empty (size ov : Nat) (ef : List Char → List ℚ)
    (h : List Char → List Char) (existing : List (List Char)) (now : Nat)
    (acc : StoreState × Nat × Nat) (file : List Char × List Char)
    (he : (chunkText file.2 size ov).isEmpty = true) :
    reindexFileStep size ov ef h existing now acc file =
      ((if file.1 ∈ existing then deleteChunksByFile acc.1 file.1 else acc.1),
        acc.2.1, acc.2.2) := by
  simp only [reindexFileStep, he, if_true]

/-- Branch equation for `reindexFileStep`: the file produced chunks. -/
theorem reindexFileStep_nonempty (size ov : Nat) (ef : List Char → List ℚ)
    (h : List Char → List Char) (existing : List (List Char)) (now : Nat)
    (acc : StoreState × Nat × Nat) (file : List Char × List Char)
    (he : ¬ (chunkText file.2 size ov).isEmpty = true) :
    reindexFileStep size ov ef h existing now acc file =
      (insertChunksOk (if file.1 ∈ existing then deleteChunksByFile acc.1 file.1 else acc.1)
        (mkDocumentChunks ef h file.1 (chunkText file.2 size ov)) now,
        acc.2.1 + 1, acc.2.2 + (chunkText file.2 size ov).length) := by
  simp only [reindexFileStep, if_neg he]

theorem processLoop_noSource (size ov : Nat) (ef : List Char → List ℚ)
    (h : List Char → List Char) (existing : List (List Char)) (now : Nat)
    (onDisk : List (List Char)) (sp : List Char) (hsp : sp ∉ onDisk) :
    ∀ (ds : List (List Char × List Char)) (acc : StoreState × Nat × Nat),
      (∀ d ∈ ds, d.1 ∈ onDisk) → noSource acc.1 sp →
      noSource ((ds.foldl (reindexFileStep size ov ef h existing now) acc)).1 sp := by
  intro ds
  induction ds with
  | nil => intro acc hd hns; exact hns
  | cons d rest ih =>
    intro acc hd hns
    rw [List.foldl_cons]
    have hst1 : noSource (if d.1 ∈ existing then deleteChunksByFile acc.1 d.1 else acc.1) sp := by
      split
      · intro r hr
        exact hns r (deleteChunksByFile_chunks_subset _ _ r hr)
      · exact hns
    have hstep : noSource (reindexFileStep size ov ef h existing now acc d).1 sp := by
      by_cases he : (chunkText d.2 size ov).isEmpty = true
      · rw [reindexFileStep_empty size ov ef h existing now acc d he]
        exact hst1
      · rw [reindexFileStep_nonempty size ov ef h existing now acc d he]
        have hd1 : d.1 ∈ onDisk := hd d (List.mem_cons_self d rest)
        have hne : d.1 ≠ sp := fun heq => hsp (heq ▸ hd1)
        exact noSource_insertChunksOk now sp _ _
          (fun c hc => (mkDocumentChunks_path ef h d.1 _ c hc) ▸ hne) hst1
    exact ih _ (fun d' hd' => hd d' (List.mem_cons_of_mem _ hd')) hstep

theorem processLoop_updated_mono (size ov : Nat) (ef : List Char → List ℚ)
    (h : List Char → List Char) (existing : List (List Char)) (now : Nat) :
    ∀ (ds : List (List Char × List Char)) (acc : StoreState × Nat × Nat),
      acc.2.1 ≤ ((ds.foldl (reindexFileStep size ov ef h existing now) acc)).2.1 := by
  intro ds
  induction ds with
  | nil => intro acc; exact le_rfl
  | cons d rest ih =>
    intro acc
    rw [List.foldl_cons]
    refine le_trans ?_ (ih (reindexFileStep size ov ef h existing now acc d))
    by_cases he : (chunkText d.2 size ov).isEmpty = true
    · rw [reindexFileStep_empty size ov ef h existing now acc d he]
    · rw [reindexFileStep_nonempty size ov ef h existing now acc d he]
      show acc.2.1 ≤ acc.2.1 + 1
      omega

theorem fileExists_eq_false_of_noSource (st : StoreState) (p : List Char)
    (h : noSource st p) : fileExists st p = false := by
  unfold fileExists
  have he : st.chunks.filter (fun r => decide (r.file_path = p)) = [] := by
    rw [List.filter_eq_nil_iff]
    intro r hr
    simpa using h r hr
  rw [he]
  rfl

/-- C8 (confirmed).  For every previously indexed source no longer on disk
(`fs.existsSync` false), `reindexDocuments` deletes it in its first loop and
counts it as updated, and the second loop — which only touches discovered
files, all of which are on disk — never re-creates it: afterwards
`fileExists` is false for every removed source, and `filesUpdated` is at
least the number of removed sources. -/
theorem reindex_removes_deleted_sources (size ov : Nat) (ef : List Char → List ℚ)
    (h : List Char → List Char) (st : StoreState) (onDisk : List (List Char))
    (discovered : List (List Char × List Char)) (now : Nat)
    (hdisc : ∀ d ∈ discovered, d.1 ∈ onDisk) :
    (∀ s ∈ (getAllFiles st).filter (fun p => !(decide (p ∈ onDisk))),
      fileExists (reindexDocuments size ov ef h st onDisk discovered now).1 s = false) ∧
    ((getAllFiles st).filter (fun p => !(decide (p ∈ onDisk)))).length ≤
      (reindexDocuments size ov ef h st onDisk discovered now).2.2.1 := by
  have hdel := reindexDeleteLoop_spec onDisk (getAllFiles st) st 0
  constructor
  · intro s hs
    have hsmem : s ∈ getAllFiles st := List.mem_of_mem_filter hs
    have hsnd : s ∉ onDisk := by
      have h2 := List.of_mem_filter hs
      simpa using h2
    have hns1 : noSource (reindexDeleteLoop onDisk (st, 0) (getAllFiles st)).1 s :=
      hdel.2.2 s hsmem hsnd
    have hproc := processLoop_noSource size ov ef h (getAllFiles st) now onDisk s hsnd
      discovered ((reindexDeleteLoop onDisk (st, 0) (getAllFiles st)).1,
        (reindexDeleteLoop onDisk (st, 0) (getAllFiles st)).2, 0) hdisc hns1
    exact fileExists_eq_false_of_noSource _ s hproc
  · have hcount : ((getAllFiles st).filter (fun p => !(decide (p ∈ onDisk)))).length =
        (getAllFiles st).countP (fun p => !(decide (p ∈ onDisk))) :=
      (List.countP_eq_length_filter _ _).symm
    have hmono := processLoop_updated_mono size ov ef h (getAllFiles st) now discovered
      ((reindexDeleteLoop onDisk (st, 0) (getAllFiles st)).1,
        (reindexDeleteLoop onDisk (st, 0) (getAllFiles st)).2, 0)
    show ((getAllFiles st).filter (fun p => !(decide (p ∈ onDisk)))).length ≤
      (discovered.foldl (reindexFileStep size ov ef h (getAllFiles st) now)
        ((reindexDeleteLoop onDisk (st, 0) (getAllFiles st)).1,
          (reindexDeleteLoop onDisk (st, 0) (getAllFiles st)).2, 0)).2.1
    refine le_trans ?_ hmono
    show ((getAllFiles st).filter (fun p => !(decide (p ∈ onDisk)))).length ≤
      (reindexDeleteLoop onDisk (st, 0) (getAllFiles st)).2
    rw [hcount, hdel.1]
    omega

/-- Witness for `reindex_removes_deleted_sources`: the store holding only
source `a.txt`, an empty disk and an empty discovery list — after reindex the
source is gone and `filesUpdated` is 1. -/
theorem reindex_removes_deleted_sources_witness :
    (∀ d ∈ ([] : List (List Char × List Char)), d.1 ∈ ([] : List (List Char))) ∧
    ((∀ s ∈ (getAllFiles singletonState).filter
        (fun p => !(decide (p ∈ ([] : List (List Char))))),
      fileExists (reindexDocuments 10 2 (fun _ => []) (fun x => x) singletonState
        [] [] 0).1 s = false) ∧
    ((getAllFiles singletonState).filter
        (fun p => !(decide (p ∈ ([] : List (List Char)))))).length ≤
      (reindexDocuments 10 2 (fun _ => []) (fun x => x) singletonState [] [] 0).2.2.1) :=
  ⟨by decide,
    reindex_removes_deleted_sources 10 2 (fun _ => []) (fun x => x) singletonState
      [] [] 0 (by decide)⟩

end NextjsRag
